import Mathlib

/-!
Shallow embedding of the resume-analyzer scripts (`app.py`, `Parser.py`).

Text is modelled as `List Char` with ASCII character semantics for the
Python string primitives involved (`str.lower`, `\w`/`\W`, `str.isupper`,
whitespace, `str.split`, `str.splitlines`, `str.count`, `in`,
`str.strip`).  External collaborators (the fuzzywuzzy ratio function, the
sentence-embedding model, the PDF parser) are abstracted as parameters,
as the spec treats them as black-box services.
-/

/-- ASCII model of Python whitespace (the characters stripped by
`str.strip()` and separating tokens for `str.split()`). -/
def pyIsSpace (c : Char) : Bool :=
  c == ' ' || c == '\t' || c == '\n' || c == '\r' || c == '\x0b' || c == '\x0c'

/-- ASCII model of the regex class `\w`: letters, digits and underscore. -/
def isWordChar (c : Char) : Bool :=
  c.isAlphanum || c == '_'

/-- ASCII model of Python `str.lower` applied to one character. -/
def pyLower (c : Char) : Char :=
  if c.isUpper then Char.ofNat (c.toNat + 32) else c

/-- Python `str.lower` over a whole string. -/
def pyLowerStr (l : List Char) : List Char :=
  l.map pyLower

/-- Does `pat` occur at the very start of `l`? (helper for substring tests). -/
def leadsWith : List Char → List Char → Bool
  | [], _ => true
  | _ :: _, [] => false
  | p :: ps, c :: cs => p == c && leadsWith ps cs

/-- Helper for `countSub`: `skip` counts characters still covered by the
previous non-overlapping match and hence not eligible to start a new one. -/
def countSubGo (pat : List Char) : Nat → List Char → Nat
  | _ + 1, [] => 0
  | 0, [] => 0
  | k + 1, _ :: cs => countSubGo pat k cs
  | 0, c :: cs =>
    if leadsWith pat (c :: cs) then 1 + countSubGo pat (pat.length - 1) cs
    else countSubGo pat 0 cs

/-- Python `text.count(pat)` for a non-empty `pat`: number of
non-overlapping occurrences of `pat` in `text`, scanning left to right. -/
def countSub (pat text : List Char) : Nat :=
  countSubGo pat 0 text

/-- Python `pat in text`: contiguous-substring test. -/
def containsSub (pat : List Char) : List Char → Bool
  | [] => pat.isEmpty
  | c :: cs => leadsWith pat (c :: cs) || containsSub pat cs

/-- Helper for `splitlines`: accumulates the current line (reversed). -/
def splitlinesGo (cur : List Char) : List Char → List (List Char)
  | [] => [cur.reverse]
  | '\r' :: '\n' :: rest =>
    cur.reverse :: (if rest.isEmpty then [] else splitlinesGo [] rest)
  | '\n' :: rest =>
    cur.reverse :: (if rest.isEmpty then [] else splitlinesGo [] rest)
  | '\r' :: rest =>
    cur.reverse :: (if rest.isEmpty then [] else splitlinesGo [] rest)
  | c :: rest => splitlinesGo (c :: cur) rest

/-- ASCII model of Python `str.splitlines()`: breaks at `\n`, `\r\n`, `\r`,
with no trailing empty line for a terminal line break. -/
def splitlines (l : List Char) : List (List Char) :=
  if l.isEmpty then [] else splitlinesGo [] l

/-- Helper for `pySplit`: accumulates the current token (reversed). -/
def pySplitGo (cur : List Char) : List Char → List (List Char)
  | [] => if cur.isEmpty then [] else [cur.reverse]
  | c :: rest =>
    if pyIsSpace c then
      (if cur.isEmpty then pySplitGo [] rest else cur.reverse :: pySplitGo [] rest)
    else pySplitGo (c :: cur) rest

/-- Python `str.split()` (no argument): whitespace-separated tokens,
with no empty tokens. -/
def pySplit (l : List Char) : List (List Char) :=
  pySplitGo [] l

/-- ASCII model of Python `str.isupper()`: at least one cased character and
no lowercase cased character. -/
def pyIsUpper (l : List Char) : Bool :=
  l.any (fun c => c.isAlpha) && l.all (fun c => !c.isLower)

/-- `re.sub(r'\W+', ' ', ·)`: every maximal run of non-word characters is
replaced by a single space.  A space emitted for a run merges with the
space already produced for the tail when the run continues there. -/
def collapseNonWord : List Char → List Char
  | [] => []
  | c :: cs =>
    let rest := collapseNonWord cs
    if isWordChar c then c :: rest
    else
      match rest with
      | ' ' :: _ => rest
      | _ => ' ' :: rest

/-- `re.sub(r'\s+', ' ', ·)`: every maximal run of whitespace is replaced
by a single space. -/
def collapseWs : List Char → List Char
  | [] => []
  | c :: cs =>
    let rest := collapseWs cs
    if pyIsSpace c then
      match rest with
      | ' ' :: _ => rest
      | _ => ' ' :: rest
    else c :: rest

/-- Removes trailing Python whitespace (right half of `str.strip()`). -/
def pyStripRight : List Char → List Char
  | [] => []
  | c :: cs =>
    match pyStripRight cs with
    | [] => if pyIsSpace c then [] else [c]
    | r => c :: r

/-- Python `str.strip()`: removes leading and trailing whitespace. -/
def pyStrip (l : List Char) : List Char :=
  pyStripRight (l.dropWhile pyIsSpace)

/-- `app.py` lines 37-40, `preprocess_text`: lowercase, replace each
maximal run of non-word characters by one space, strip. -/
def preprocess_text (text : List Char) : List Char :=
  pyStrip (collapseNonWord (pyLowerStr text))

/-- No two adjacent characters of the list are both spaces. -/
def noTwoSpaces : List Char → Bool
  | [] => true
  | [_] => true
  | a :: b :: rest => !(a == ' ' && b == ' ') && noTwoSpaces (b :: rest)

/-- Outcome of the external PDF library (`fitz`) on an uploaded byte
stream: either the per-page extracted texts of a successfully opened
document, or the message of the exception raised by reading/opening/
parsing. -/
inductive PdfDoc where
  | ok (pages : List (List Char))
  | err (msg : List Char)

/-- `app.py` lines 23-34, `extract_text_from_pdf`: concatenates the page
texts, collapses whitespace runs and strips; on any exception it displays
"Error reading PDF: ..." (second component models the `st.error` call,
`none` when nothing is displayed) and returns the empty string. -/
def extract_text_from_pdf (doc : PdfDoc) : List Char × Option (List Char) :=
  match doc with
  | .ok pages => (pyStrip (collapseWs (pages.foldl (· ++ ·) [])), none)
  | .err e => ([], some ("Error reading PDF: ".toList ++ e))

/-- Loop body of `extract_skills` (`app.py` lines 49-55): `approx` is the
external `fuzz.partial` ratio scorer (two strings to an integer 0-100),
`rl`/`jl` the already-lowercased resume and job-description texts. -/
def extract_skills_loop (approx : List Char → List Char → ℤ) (t : ℤ)
    (rl jl : List Char) : List (List Char) → List (List Char) × List (List Char)
  | [] => ([], [])
  | skill :: rest =>
    let score_resume := approx (pyLowerStr skill) rl
    let score_jd := approx (pyLowerStr skill) jl
    let p := extract_skills_loop approx t rl jl rest
    if t ≤ score_resume then (skill :: p.1, p.2)
    else if t ≤ score_jd ∧ score_resume < t then (p.1, skill :: p.2)
    else p

/-- `app.py` lines 43-56, `extract_skills`: lowercases both texts, then
classifies each skill as matched / missing / neither by comparing the
fuzzy scores of the lowercased skill with the threshold. -/
def extract_skills (approx : List Char → List Char → ℤ)
    (resume_text job_desc : List Char) (skills_list : List (List Char))
    (threshold : ℤ) : List (List Char) × List (List Char) :=
  extract_skills_loop approx threshold (pyLowerStr resume_text)
    (pyLowerStr job_desc) skills_list

/-- Decimal digit character for `d < 10` (used by Python's `str(int)`). -/
def natDigitChar (d : Nat) : Char :=
  if d = 0 then '0' else if d = 1 then '1' else if d = 2 then '2'
  else if d = 3 then '3' else if d = 4 then '4' else if d = 5 then '5'
  else if d = 6 then '6' else if d = 7 then '7' else if d = 8 then '8'
  else '9'

/-- Helper for `natRepr`, with explicit fuel (`fuel ≥ n` suffices). -/
def natReprAux : Nat → Nat → List Char → List Char
  | 0, _, acc => acc
  | fuel + 1, n, acc =>
    if n = 0 then acc
    else natReprAux fuel (n / 10) (natDigitChar (n % 10) :: acc)

/-- Python `str(n)` for a natural number: decimal digits. -/
def natRepr (n : Nat) : List Char :=
  if n = 0 then ['0'] else natReprAux n n []

/-- Message appended by `check_formatting` when bullets are scarce. -/
def bulletMsg : List Char :=
  "Use more bullet points for better readability.".toList

/-- Message appended by `check_formatting` for an ALL-CAPS line. -/
def capsMsg : List Char :=
  "Avoid using ALL CAPS excessively.".toList

/-- Message appended by `check_formatting` for overlong lines (the
f-string interpolates the number of such lines). -/
def longMsg (n : Nat) : List Char :=
  natRepr n ++ " lines are too long. Try breaking them up.".toList

/-- `app.py` lines 66-75, `check_formatting`: sequential conditional
appends modelled as list concatenation. -/
def check_formatting (text : List Char) : List (List Char) :=
  let bulletIssue :=
    if countSub ['•'] text < 3 ∧ countSub ['-', ' '] text < 3 then [bulletMsg] else []
  let capsIssue :=
    if (splitlines text).any (fun line => pyIsUpper line && decide (10 < line.length))
    then [capsMsg] else []
  let long_lines := (splitlines text).filter (fun line => decide (160 < line.length))
  let longIssue := if long_lines.isEmpty then [] else [longMsg long_lines.length]
  bulletIssue ++ capsIssue ++ longIssue

/-- `app.py` lines 78-87, `calculate_style_score`. -/
def calculate_style_score (text : List Char) : ℕ :=
  let bullets := countSub ['•'] text + countSub ['-', ' '] text
  if 10 ≤ bullets then 100
  else if 5 ≤ bullets then 75
  else if 3 ≤ bullets then 50
  else 25

/-- Python `round` on an exact rational: round half to even. -/
def pyRound (q : ℚ) : ℤ :=
  if q - (⌊q⌋ : ℚ) < 1 / 2 then ⌊q⌋
  else if 1 / 2 < q - (⌊q⌋ : ℚ) then ⌊q⌋ + 1
  else if ⌊q⌋ % 2 = 0 then ⌊q⌋ else ⌊q⌋ + 1

/-- `app.py` lines 89-93, `calculate_ats_score`; Python's float division
is modelled by exact rational arithmetic and `round` by `pyRound`. -/
def calculate_ats_score (text job_desc : List Char) : ℤ :=
  let keywords := (pySplit (pyLowerStr job_desc)).filter (fun word => 4 < word.length)
  let num_matches := keywords.countP (fun k => containsSub k (pyLowerStr text))
  let density : ℚ :=
    if keywords.isEmpty then 0 else (num_matches : ℚ) / (keywords.length : ℚ)
  min 100 (pyRound (density * 100))

/-- The unclamped variant of `calculate_ats_score` named by claim C10:
identical except that the final `min(100, ·)` clamp is dropped. -/
def calculate_ats_score_unclamped (text job_desc : List Char) : ℤ :=
  let keywords := (pySplit (pyLowerStr job_desc)).filter (fun word => 4 < word.length)
  let num_matches := keywords.countP (fun k => containsSub k (pyLowerStr text))
  let density : ℚ :=
    if keywords.isEmpty then 0 else (num_matches : ℚ) / (keywords.length : ℚ)
  pyRound (density * 100)

/-- `app.py` lines 101-113, `compare_resume_with_job`: `enc` abstracts the
composite of the sentence-embedding model on the two role-prefixed texts
and `util.cos` similarity; `approx` abstracts the fuzzy ratio scorer. -/
def compare_resume_with_job (enc : List Char → List Char → ℚ)
    (approx : List Char → List Char → ℤ) (resume_text job_desc : List Char)
    (skills_list : List (List Char)) :
    Option ℚ × List (List Char) × List (List Char) :=
  let resume_clean := preprocess_text resume_text
  let jd_clean := preprocess_text job_desc
  if resume_clean.isEmpty ∨ jd_clean.isEmpty then (none, [], [])
  else
    let similarity :=
      enc ("passage: ".toList ++ resume_clean) ("query: ".toList ++ jd_clean)
    let p := extract_skills approx resume_text job_desc skills_list 70
    (some similarity, p.1, p.2)

/-- The skill-matching loop produces exactly the two filters of the skill
list by the threshold tests the code performs. -/
theorem extract_skills_loop_eq (approx : List Char → List Char → ℤ) (t : ℤ)
    (rl jl : List Char) (skills : List (List Char)) :
    extract_skills_loop approx t rl jl skills =
      (skills.filter (fun s => decide (t ≤ approx (pyLowerStr s) rl)),
       skills.filter (fun s =>
         decide (t ≤ approx (pyLowerStr s) jl ∧ approx (pyLowerStr s) rl < t))) := by
  induction skills with
  | nil => rfl
  | cons s rest ih =>
    simp only [extract_skills_loop, List.filter_cons, ih]
    by_cases h1 : t ≤ approx (pyLowerStr s) rl
    · have h2 : ¬(t ≤ approx (pyLowerStr s) jl ∧ approx (pyLowerStr s) rl < t) := by
        intro hc
        exact absurd h1 (not_le.mpr hc.2)
      simp [h1, h2]
    · by_cases h2 : t ≤ approx (pyLowerStr s) jl ∧ approx (pyLowerStr s) rl < t
      · simp [h1, h2]
      · simp [h1, h2]

/-- C1: `extract_skills` puts a skill in the matched sequence exactly when
its fuzzy similarity against the lowercased resume text reaches the
threshold, in the missing sequence exactly when its similarity against the
lowercased job description reaches the threshold while the resume
similarity stays below it, and the two outputs are disjoint,
order-preserving subsequences of the input skill list. -/
theorem extract_skills_correct (approx : List Char → List Char → ℤ)
    (resume_text job_desc : List Char) (skills_list : List (List Char)) (t : ℤ) :
    (∀ s, s ∈ (extract_skills approx resume_text job_desc skills_list t).1 ↔
        s ∈ skills_list ∧ t ≤ approx (pyLowerStr s) (pyLowerStr resume_text)) ∧
    (∀ s, s ∈ (extract_skills approx resume_text job_desc skills_list t).2 ↔
        s ∈ skills_list ∧ t ≤ approx (pyLowerStr s) (pyLowerStr job_desc) ∧
          approx (pyLowerStr s) (pyLowerStr resume_text) < t) ∧
    List.Disjoint (extract_skills approx resume_text job_desc skills_list t).1
      (extract_skills approx resume_text job_desc skills_list t).2 ∧
    List.Sublist (extract_skills approx resume_text job_desc skills_list t).1 skills_list ∧
    List.Sublist (extract_skills approx resume_text job_desc skills_list t).2 skills_list := by
  unfold extract_skills
  rw [extract_skills_loop_eq]
  refine ⟨?_, ?_, ?_, ?_, ?_⟩
  · intro s
    simp [List.mem_filter]
  · intro s
    simp [List.mem_filter]
  · intro s hm hg
    rw [List.mem_filter] at hm hg
    have h1 := of_decide_eq_true hm.2
    have h2 := of_decide_eq_true hg.2
    exact absurd h1 (not_le.mpr h2.2)
  · exact List.filter_sublist _
  · exact List.filter_sublist _

/-- C5: the style score is determined solely by the bullet-marker count
`b`: 100 when `b ≥ 10`, 75 when `5 ≤ b < 10`, 50 when `3 ≤ b < 5`, 25
otherwise; it always lies in `{25, 50, 75, 100}` and is monotone
non-decreasing in `b`. -/
theorem calculate_style_score_spec (t1 t2 : List Char)
    (h : countSub ['•'] t1 + countSub ['-', ' '] t1 ≤
      countSub ['•'] t2 + countSub ['-', ' '] t2) :
    (calculate_style_score t1 = 100 ↔
      10 ≤ countSub ['•'] t1 + countSub ['-', ' '] t1) ∧
    (calculate_style_score t1 = 75 ↔
      (5 ≤ countSub ['•'] t1 + countSub ['-', ' '] t1 ∧
        countSub ['•'] t1 + countSub ['-', ' '] t1 < 10)) ∧
    (calculate_style_score t1 = 50 ↔
      (3 ≤ countSub ['•'] t1 + countSub ['-', ' '] t1 ∧
        countSub ['•'] t1 + countSub ['-', ' '] t1 < 5)) ∧
    (calculate_style_score t1 = 25 ↔
      countSub ['•'] t1 + countSub ['-', ' '] t1 < 3) ∧
    (calculate_style_score t1 = 25 ∨ calculate_style_score t1 = 50 ∨
      calculate_style_score t1 = 75 ∨ calculate_style_score t1 = 100) ∧
    calculate_style_score t1 ≤ calculate_style_score t2 := by
  simp only [calculate_style_score]
  split_ifs <;> omega

/-- Witness for C5 at concrete inputs: the empty text scores 25, and the
score does not decrease towards a bullet-heavier text. -/
theorem calculate_style_score_spec_witness :
    calculate_style_score "".toList = 25 ∧
      calculate_style_score "".toList ≤ calculate_style_score "- - - ".toList := by
  have h := calculate_style_score_spec "".toList "- - - ".toList (by decide)
  exact ⟨h.2.2.2.1.mpr (by decide), h.2.2.2.2.2⟩

/-- C7: the similarity scorer preprocesses both texts and, when either
becomes empty, returns a null similarity (and empty skill lists) instead
of an embedding-based score. -/
theorem compare_resume_with_job_empty (enc : List Char → List Char → ℚ)
    (approx : List Char → List Char → ℤ) (resume_text job_desc : List Char)
    (skills_list : List (List Char))
    (h : preprocess_text resume_text = [] ∨ preprocess_text job_desc = []) :
    compare_resume_with_job enc approx resume_text job_desc skills_list =
      (none, [], []) := by
  unfold compare_resume_with_job
  rcases h with h | h <;> simp [h]

/-- Witness for C7: a resume of pure punctuation preprocesses to the empty
string, and the scorer returns the null similarity on it. -/
theorem compare_resume_with_job_empty_witness :
    compare_resume_with_job (fun _ _ => 0) (fun _ _ => 0) "!!!".toList
      "python".toList ["python".toList] = (none, [], []) :=
  compare_resume_with_job_empty _ _ _ _ _ (Or.inl (by decide))

/-- Counterexample to C3 as stated: the returned text of a failed parse
and of a valid document with no extractable text are the same empty
string, so the caller cannot distinguish the two outcomes from the
returned value. -/
theorem extract_text_from_pdf_counterexample :
    (extract_text_from_pdf (PdfDoc.err "invalid pdf".toList)).1 =
      (extract_text_from_pdf (PdfDoc.ok [])).1 := by decide

/-- C3 amended: on any parsing exception the extractor displays an
"Error reading PDF" message and returns the empty string; a successful
extraction displays nothing.  The failure is therefore signalled only by
the displayed message, not by the returned text. -/
theorem extract_text_from_pdf_amended (e : List Char) (pages : List (List Char)) :
    (extract_text_from_pdf (PdfDoc.err e)).1 = [] ∧
    ((extract_text_from_pdf (PdfDoc.err e)).2).isSome = true ∧
    (extract_text_from_pdf (PdfDoc.ok pages)).2 = none :=
  ⟨rfl, rfl, rfl⟩

/-- Every digit character produced by `natDigitChar` is a decimal digit. -/
theorem natDigitChar_isDigit (d : Nat) : (natDigitChar d).isDigit = true := by
  unfold natDigitChar
  split_ifs <;> decide

/-- `natReprAux` only ever prepends digit characters. -/
theorem natReprAux_digits (fuel : Nat) :
    ∀ n acc, (∀ c ∈ acc, c.isDigit = true) →
      ∀ c ∈ natReprAux fuel n acc, c.isDigit = true := by
  induction fuel with
  | zero => intro n acc hacc; exact hacc
  | succ f ih =>
    intro n acc hacc c hc
    rw [natReprAux] at hc
    split at hc
    · exact hacc c hc
    · refine ih (n / 10) (natDigitChar (n % 10) :: acc) ?_ c hc
      intro c' hc'
      rcases List.mem_cons.mp hc' with h | h
      · rw [h]; exact natDigitChar_isDigit _
      · exact hacc c' h

/-- `natReprAux` never discards its accumulator. -/
theorem natReprAux_ne_nil (fuel : Nat) :
    ∀ n acc, acc ≠ [] → natReprAux fuel n acc ≠ [] := by
  induction fuel with
  | zero => intro n acc hacc; exact hacc
  | succ f ih =>
    intro n acc hacc
    rw [natReprAux]
    split
    · exact hacc
    · exact ih (n / 10) _ (List.cons_ne_nil _ _)

/-- The decimal representation of a natural number is a non-empty string
of digit characters. -/
theorem natRepr_spec (n : Nat) :
    natRepr n ≠ [] ∧ ∀ c ∈ natRepr n, c.isDigit = true := by
  unfold natRepr
  split
  · exact ⟨by decide, by decide⟩
  · constructor
    · rename_i hn
      obtain ⟨m, rfl⟩ := Nat.exists_eq_succ_of_ne_zero hn
      rw [natReprAux]
      split
      · exact absurd (by assumption) hn
      · exact natReprAux_ne_nil _ _ _ (List.cons_ne_nil _ _)
    · exact natReprAux_digits n n [] (by simp)

/-- The long-line message starts with a decimal digit. -/
theorem longMsg_head_digit (n : Nat) :
    ∃ c r, longMsg n = c :: r ∧ c.isDigit = true := by
  obtain ⟨hne, hdig⟩ := natRepr_spec n
  rcases hrep : natRepr n with _ | ⟨c, r⟩
  · exact absurd hrep hne
  · refine ⟨c, r ++ " lines are too long. Try breaking them up.".toList, ?_, ?_⟩
    · rw [longMsg, hrep]; rfl
    · exact hdig c (by rw [hrep]; exact List.mem_cons_self _ _)

/-- The long-line message differs from the bullet suggestion. -/
theorem longMsg_ne_bulletMsg (n : Nat) : longMsg n ≠ bulletMsg := by
  intro h
  obtain ⟨c, r, heq, hdig⟩ := longMsg_head_digit n
  rw [heq] at h
  have h1 : (c :: r).head? = bulletMsg.head? := congrArg List.head? h
  have h2 : bulletMsg.head? = some 'U' := by decide
  rw [h2, List.head?_cons, Option.some_inj] at h1
  rw [h1] at hdig
  exact absurd hdig (by decide)

/-- The long-line message differs from the ALL-CAPS warning. -/
theorem longMsg_ne_capsMsg (n : Nat) : longMsg n ≠ capsMsg := by
  intro h
  obtain ⟨c, r, heq, hdig⟩ := longMsg_head_digit n
  rw [heq] at h
  have h1 : (c :: r).head? = capsMsg.head? := congrArg List.head? h
  have h2 : capsMsg.head? = some 'A' := by decide
  rw [h2, List.head?_cons, Option.some_inj] at h1
  rw [h1] at hdig
  exact absurd hdig (by decide)

/-- The bullet suggestion differs from the long-line message. -/
theorem bulletMsg_ne_longMsg (n : Nat) : bulletMsg ≠ longMsg n :=
  (longMsg_ne_bulletMsg n).symm

/-- The ALL-CAPS warning differs from the long-line message. -/
theorem capsMsg_ne_longMsg (n : Nat) : capsMsg ≠ longMsg n :=
  (longMsg_ne_capsMsg n).symm

/-- `check_formatting` unfolded to its three conditional segments. -/
theorem check_formatting_cases (text : List Char) :
    check_formatting text =
      (if countSub ['•'] text < 3 ∧ countSub ['-', ' '] text < 3
        then [bulletMsg] else []) ++
      (if (splitlines text).any (fun line => pyIsUpper line && decide (10 < line.length))
        then [capsMsg] else []) ++
      (if ((splitlines text).filter (fun line => decide (160 < line.length))).isEmpty
        then []
        else [longMsg ((splitlines text).filter
          (fun line => decide (160 < line.length))).length]) := rfl

/-- The bullet suggestion is emitted exactly when both marker counts are
below three. -/
theorem bulletMsg_mem_iff (text : List Char) :
    bulletMsg ∈ check_formatting text ↔
      countSub ['•'] text < 3 ∧ countSub ['-', ' '] text < 3 := by
  rw [check_formatting_cases]
  simp only [List.mem_append]
  by_cases h1 : countSub ['•'] text < 3 ∧ countSub ['-', ' '] text < 3 <;>
    by_cases h2 : (splitlines text).any
      (fun line => pyIsUpper line && decide (10 < line.length)) = true <;>
    by_cases h3 : ((splitlines text).filter
      (fun line => decide (160 < line.length))).isEmpty = true <;>
    simp [h1, h2, h3, (by decide : ¬bulletMsg = capsMsg), bulletMsg_ne_longMsg]

/-- The ALL-CAPS warning is emitted exactly when some line is entirely
uppercase and longer than ten characters. -/
theorem capsMsg_mem_iff (text : List Char) :
    capsMsg ∈ check_formatting text ↔
      ∃ line ∈ splitlines text, pyIsUpper line = true ∧ 10 < line.length := by
  have hany : ((splitlines text).any
      (fun line => pyIsUpper line && decide (10 < line.length)) = true) ↔
      ∃ line ∈ splitlines text, pyIsUpper line = true ∧ 10 < line.length := by
    simp [List.any_eq_true, Bool.and_eq_true]
  rw [← hany, check_formatting_cases]
  simp only [List.mem_append]
  by_cases h1 : countSub ['•'] text < 3 ∧ countSub ['-', ' '] text < 3 <;>
    by_cases h2 : (splitlines text).any
      (fun line => pyIsUpper line && decide (10 < line.length)) = true <;>
    by_cases h3 : ((splitlines text).filter
      (fun line => decide (160 < line.length))).isEmpty = true <;>
    simp [h1, h2, h3, (by decide : ¬capsMsg = bulletMsg), capsMsg_ne_longMsg]

/-- Membership in a conditional singleton determines the element and the
condition. -/
theorem mem_ite_singleton {c : Prop} [Decidable c] {a x : List Char}
    (h : x ∈ (if c then [a] else ([] : List (List Char)))) : x = a ∧ c := by
  split at h
  · exact ⟨List.mem_singleton.mp h, by assumption⟩
  · simp at h

/-- Membership in a negatively conditional singleton determines the
element and refutes the condition. -/
theorem mem_ite_singleton_neg {c : Prop} [Decidable c] {a x : List Char}
    (h : x ∈ (if c then ([] : List (List Char)) else [a])) : x = a ∧ ¬c := by
  split at h
  · simp at h
  · exact ⟨List.mem_singleton.mp h, by assumption⟩

/-- Some long-line message is emitted exactly when a line longer than 160
characters exists, and the emitted message reports the exact count of
those lines. -/
theorem longMsg_mem_iff (text : List Char) :
    ((∃ n, longMsg n ∈ check_formatting text) ↔
      0 < ((splitlines text).filter (fun line => decide (160 < line.length))).length) ∧
    (longMsg ((splitlines text).filter
        (fun line => decide (160 < line.length))).length ∈ check_formatting text ↔
      0 < ((splitlines text).filter (fun line => decide (160 < line.length))).length) := by
  have hfwd : ∀ n, longMsg n ∈ check_formatting text →
      0 < ((splitlines text).filter (fun line => decide (160 < line.length))).length := by
    intro n hn
    rw [check_formatting_cases] at hn
    rcases List.mem_append.mp hn with hn' | hn'
    · rcases List.mem_append.mp hn' with hn'' | hn''
      · exact absurd (mem_ite_singleton hn'').1 (longMsg_ne_bulletMsg n)
      · exact absurd (mem_ite_singleton hn'').1 (longMsg_ne_capsMsg n)
    · obtain ⟨-, hc⟩ := mem_ite_singleton_neg hn'
      by_cases h0 : ((splitlines text).filter
          (fun line => decide (160 < line.length))).length = 0
      · have : ((splitlines text).filter
            (fun line => decide (160 < line.length))).isEmpty = true := by
          rw [List.isEmpty_iff, ← List.length_eq_zero]
          exact h0
        exact absurd this hc
      · omega
  have hbwd : 0 < ((splitlines text).filter
        (fun line => decide (160 < line.length))).length →
      longMsg ((splitlines text).filter
        (fun line => decide (160 < line.length))).length ∈ check_formatting text := by
    intro hpos
    rw [check_formatting_cases]
    have h3 : ¬(((splitlines text).filter
        (fun line => decide (160 < line.length))).isEmpty = true) := by
      rw [List.isEmpty_iff, ← List.length_eq_zero]
      omega
    refine List.mem_append.mpr (Or.inr ?_)
    rw [if_neg h3]
    exact List.mem_singleton.mpr rfl
  refine ⟨⟨?_, ?_⟩, hfwd _, hbwd⟩
  · rintro ⟨n, hn⟩
    exact hfwd n hn
  · intro hpos
    exact ⟨_, hbwd hpos⟩

/-- Counterexample to C2 as stated: on a text with two "•" markers and two
"- " markers the total marker count is 4, yet the bullet suggestion is
still emitted, because the code compares each count with 3 separately
instead of their sum. -/
theorem check_formatting_counterexample :
    bulletMsg ∈ check_formatting "• - a - b•".toList ∧
      ¬(countSub ['•'] "• - a - b•".toList +
          countSub ['-', ' '] "• - a - b•".toList < 3) := by decide

/-- C2 amended: `check_formatting` emits the bullet suggestion exactly
when the "•" count and the "- " count are each (separately) below 3; it
emits the ALL-CAPS warning exactly when some line is entirely uppercase
and longer than 10 characters; and it emits a long-line issue, reporting
the count of lines longer than 160 characters, exactly when at least one
such line exists. -/
theorem check_formatting_spec (text : List Char) :
    (bulletMsg ∈ check_formatting text ↔
      countSub ['•'] text < 3 ∧ countSub ['-', ' '] text < 3) ∧
    (capsMsg ∈ check_formatting text ↔
      ∃ line ∈ splitlines text, pyIsUpper line = true ∧ 10 < line.length) ∧
    ((∃ n, longMsg n ∈ check_formatting text) ↔
      0 < ((splitlines text).filter (fun line => decide (160 < line.length))).length) ∧
    (longMsg ((splitlines text).filter
        (fun line => decide (160 < line.length))).length ∈ check_formatting text ↔
      0 < ((splitlines text).filter (fun line => decide (160 < line.length))).length) :=
  ⟨bulletMsg_mem_iff text, capsMsg_mem_iff text,
    (longMsg_mem_iff text).1, (longMsg_mem_iff text).2⟩

/-- C8: `check_formatting` returns at most three issues, with no issue
repeated. -/
theorem check_formatting_bounds (text : List Char) :
    (check_formatting text).length ≤ 3 ∧ (check_formatting text).Nodup := by
  rw [check_formatting_cases]
  by_cases h1 : countSub ['•'] text < 3 ∧ countSub ['-', ' '] text < 3 <;>
    by_cases h2 : (splitlines text).any
      (fun line => pyIsUpper line && decide (10 < line.length)) = true <;>
    by_cases h3 : ((splitlines text).filter
      (fun line => decide (160 < line.length))).isEmpty = true <;>
    simp [h1, h2, h3, (by decide : ¬bulletMsg = capsMsg), bulletMsg_ne_longMsg,
      capsMsg_ne_longMsg]

/-- `pyRound` of a non-negative rational is non-negative. -/
theorem pyRound_nonneg {q : ℚ} (h : 0 ≤ q) : 0 ≤ pyRound q := by
  have hf : 0 ≤ ⌊q⌋ := Int.floor_nonneg.mpr h
  unfold pyRound
  split_ifs <;> omega

/-- `pyRound` of a rational at most 100 is at most 100. -/
theorem pyRound_le_hundred {q : ℚ} (h : q ≤ 100) : pyRound q ≤ 100 := by
  have hfle : (⌊q⌋ : ℚ) ≤ q := Int.floor_le q
  have hf100 : ⌊q⌋ ≤ 100 := by
    have h1 : (⌊q⌋ : ℚ) ≤ 100 := le_trans hfle h
    exact_mod_cast h1
  unfold pyRound
  split_ifs with h1 h2 h3
  · exact hf100
  · have h4 : (⌊q⌋ : ℚ) < 100 := by linarith
    have h5 : ⌊q⌋ < 100 := by exact_mod_cast h4
    omega
  · exact hf100
  · have h4 : (1 : ℚ) / 2 ≤ q - (⌊q⌋ : ℚ) := not_lt.mp h1
    have h5 : (⌊q⌋ : ℚ) < 100 := by linarith
    have h6 : ⌊q⌋ < 100 := by exact_mod_cast h5
    omega

/-- The keyword density computed by the ATS score is at most one, so the
rescaled value is at most 100. -/
theorem ats_density_le_hundred (text job_desc : List Char) :
    (if ((pySplit (pyLowerStr job_desc)).filter
          (fun word => 4 < word.length)).isEmpty
      then (0 : ℚ)
      else (((pySplit (pyLowerStr job_desc)).filter
            (fun word => 4 < word.length)).countP
            (fun k => containsSub k (pyLowerStr text)) : ℚ) /
          (((pySplit (pyLowerStr job_desc)).filter
            (fun word => 4 < word.length)).length : ℚ)) * 100 ≤ 100 := by
  split_ifs with h
  · norm_num
  · have hne : ((pySplit (pyLowerStr job_desc)).filter
        (fun word => 4 < word.length)) ≠ [] := by
      intro hnil
      rw [hnil] at h
      simp at h
    have hlen : 0 < (((pySplit (pyLowerStr job_desc)).filter
        (fun word => 4 < word.length)).length : ℚ) := by
      have := List.length_pos.mpr hne
      exact_mod_cast this
    have hcnt : (((pySplit (pyLowerStr job_desc)).filter
        (fun word => 4 < word.length)).countP
        (fun k => containsSub k (pyLowerStr text)) : ℚ) ≤
        (((pySplit (pyLowerStr job_desc)).filter
          (fun word => 4 < word.length)).length : ℚ) := by
      exact_mod_cast List.countP_le_length _
    have hdiv : (((pySplit (pyLowerStr job_desc)).filter
        (fun word => 4 < word.length)).countP
        (fun k => containsSub k (pyLowerStr text)) : ℚ) /
        (((pySplit (pyLowerStr job_desc)).filter
          (fun word => 4 < word.length)).length : ℚ) ≤ 1 :=
      (div_le_one hlen).mpr hcnt
    nlinarith

/-- The keyword density computed by the ATS score is non-negative. -/
theorem ats_density_nonneg (text job_desc : List Char) :
    (0 : ℚ) ≤
      (if ((pySplit (pyLowerStr job_desc)).filter
            (fun word => 4 < word.length)).isEmpty
        then (0 : ℚ)
        else (((pySplit (pyLowerStr job_desc)).filter
              (fun word => 4 < word.length)).countP
              (fun k => containsSub k (pyLowerStr text)) : ℚ) /
            (((pySplit (pyLowerStr job_desc)).filter
              (fun word => 4 < word.length)).length : ℚ)) * 100 := by
  split_ifs with h
  · norm_num
  · have h1 : (0 : ℚ) ≤ (((pySplit (pyLowerStr job_desc)).filter
        (fun word => 4 < word.length)).countP
        (fun k => containsSub k (pyLowerStr text)) : ℚ) := by positivity
    have h2 : (0 : ℚ) ≤ (((pySplit (pyLowerStr job_desc)).filter
        (fun word => 4 < word.length)).length : ℚ) := by positivity
    positivity

/-- C4: the ATS score equals `min(100, round(m/n*100))` where `n` counts
the whitespace tokens of the lowercased job description longer than 4
characters and `m` counts those that occur as substrings of the lowercased
resume; it is 0 when `n = 0`, and always lies in `[0, 100]`. -/
theorem calculate_ats_score_spec (text job_desc : List Char) :
    calculate_ats_score text job_desc =
      (if ((pySplit (pyLowerStr job_desc)).filter
            (fun word => 4 < word.length)).length = 0
        then 0
        else min 100 (pyRound
          ((((pySplit (pyLowerStr job_desc)).filter
              (fun word => 4 < word.length)).countP
              (fun k => containsSub k (pyLowerStr text)) : ℚ) /
            (((pySplit (pyLowerStr job_desc)).filter
              (fun word => 4 < word.length)).length : ℚ) * 100))) ∧
    0 ≤ calculate_ats_score text job_desc ∧
    calculate_ats_score text job_desc ≤ 100 := by
  have hbound1 := ats_density_le_hundred text job_desc
  have hbound0 := ats_density_nonneg text job_desc
  refine ⟨?_, ?_, ?_⟩
  · simp only [calculate_ats_score]
    by_cases h : ((pySplit (pyLowerStr job_desc)).filter
        (fun word => 4 < word.length)).isEmpty = true
    · have hlen : ((pySplit (pyLowerStr job_desc)).filter
          (fun word => 4 < word.length)).length = 0 := by
        rw [List.isEmpty_iff] at h
        rw [h]
        rfl
      rw [if_pos h, if_pos hlen]
      norm_num [pyRound]
    · have hne : ((pySplit (pyLowerStr job_desc)).filter
          (fun word => 4 < word.length)) ≠ [] := by
        intro hnil
        rw [hnil] at h
        simp at h
      have hlen : ¬(((pySplit (pyLowerStr job_desc)).filter
          (fun word => 4 < word.length)).length = 0) := by
        intro h0
        exact hne (List.length_eq_zero.mp h0)
      rw [if_neg h, if_neg hlen]
  · simp only [calculate_ats_score]
    exact le_min (by norm_num) (pyRound_nonneg hbound0)
  · simp only [calculate_ats_score]
    exact min_le_left _ _

/-- C10: the matched-keyword count never exceeds the keyword count, hence
the `min(100, ·)` clamp in `calculate_ats_score` is redundant and the
function agrees with its unclamped variant everywhere. -/
theorem calculate_ats_score_clamp_redundant (text job_desc : List Char) :
    ((pySplit (pyLowerStr job_desc)).filter
        (fun word => 4 < word.length)).countP
        (fun k => containsSub k (pyLowerStr text)) ≤
      ((pySplit (pyLowerStr job_desc)).filter
        (fun word => 4 < word.length)).length ∧
    calculate_ats_score text job_desc =
      calculate_ats_score_unclamped text job_desc := by
  refine ⟨List.countP_le_length _, ?_⟩
  simp only [calculate_ats_score, calculate_ats_score_unclamped]
  exact min_eq_right (pyRound_le_hundred (ats_density_le_hundred text job_desc))

/-- `Char.ofNat` round-trips on valid code points. -/
theorem toNat_ofNat_valid {n : Nat} (h : n.isValidChar) :
    (Char.ofNat n).toNat = n := by
  rw [Char.ofNat, dif_pos h]
  rfl

/-- `Char.isUpper` in terms of the numeric code point. -/
theorem char_isUpper_iff (c : Char) :
    c.isUpper = true ↔ 65 ≤ c.toNat ∧ c.toNat ≤ 90 := by
  simp only [Char.isUpper, Bool.and_eq_true, decide_eq_true_eq, ge_iff_le]
  constructor
  · rintro ⟨h1, h2⟩
    exact ⟨UInt32.le_def.mp h1, UInt32.le_def.mp h2⟩
  · rintro ⟨h1, h2⟩
    exact ⟨UInt32.le_def.mpr h1, UInt32.le_def.mpr h2⟩

/-- Lowercasing never produces an uppercase character. -/
theorem pyLower_not_upper (c : Char) : (pyLower c).isUpper = false := by
  unfold pyLower
  split_ifs with h
  · have hb := (char_isUpper_iff c).mp h
    have hvalid : (c.toNat + 32).isValidChar := by
      left
      have : c.toNat + 32 ≤ 122 := by omega
      omega
    rw [Bool.eq_false_iff]
    intro habs
    have := (char_isUpper_iff _).mp habs
    rw [toNat_ofNat_valid hvalid] at this
    omega
  · exact Bool.not_eq_true _ |>.mp h

/-- Lowercasing fixes characters that are not uppercase. -/
theorem pyLower_fixed {c : Char} (h : c.isUpper = false) : pyLower c = c := by
  unfold pyLower
  rw [if_neg]
  rw [h]
  exact Bool.false_ne_true

/-- Whitespace characters are not word characters. -/
theorem space_not_word {c : Char} (h : pyIsSpace c = true) :
    isWordChar c = false := by
  simp only [pyIsSpace, Bool.or_eq_true, beq_iff_eq] at h
  rcases h with ((((h | h) | h) | h) | h) | h <;> subst h <;> decide

/-- Word characters are not whitespace. -/
theorem word_not_space {c : Char} (h : isWordChar c = true) :
    pyIsSpace c = false := by
  by_cases hs : pyIsSpace c = true
  · rw [space_not_word hs] at h
    exact absurd h Bool.false_ne_true
  · exact Bool.not_eq_true _ |>.mp hs

/-- Word characters are not the space character. -/
theorem word_ne_space {c : Char} (h : isWordChar c = true) : c ≠ ' ' := by
  intro hc
  subst hc
  exact absurd h (by decide)

/-- Unfolding lemma for `noTwoSpaces` on a cons cell. -/
theorem noTwoSpaces_cons_iff (a : Char) (l : List Char) :
    noTwoSpaces (a :: l) = true ↔
      ¬(a = ' ' ∧ l.head? = some ' ') ∧ noTwoSpaces l = true := by
  cases l with
  | nil => simp [noTwoSpaces]
  | cons b t =>
    simp only [noTwoSpaces, Bool.and_eq_true, Bool.not_eq_true', Bool.and_eq_false_iff,
      beq_eq_false_iff_ne, List.head?_cons, Option.some_inj]
    constructor
    · rintro ⟨h1, h2⟩
      refine ⟨?_, h2⟩
      rintro ⟨ha, hb⟩
      rcases h1 with h | h
      · exact h ha
      · exact h hb
    · rintro ⟨h1, h2⟩
      refine ⟨?_, h2⟩
      by_cases ha : a = ' '
      · right
        intro hb
        exact h1 ⟨ha, hb⟩
      · left
        exact ha

/-- `noTwoSpaces` restricts to the tail. -/
theorem noTwoSpaces_tail {a : Char} {l : List Char}
    (h : noTwoSpaces (a :: l) = true) : noTwoSpaces l = true :=
  ((noTwoSpaces_cons_iff a l).mp h).2

/-- Characters surviving `collapseNonWord` are spaces or word characters
of the input. -/
theorem mem_collapseNonWord {l : List Char} :
    ∀ c ∈ collapseNonWord l, c = ' ' ∨ (isWordChar c = true ∧ c ∈ l) := by
  induction l with
  | nil => intro c hc; simp [collapseNonWord] at hc
  | cons a cs ih =>
    intro c hc
    simp only [collapseNonWord] at hc
    split_ifs at hc with hw
    · rcases List.mem_cons.mp hc with h | h
      · subst h
        exact Or.inr ⟨hw, List.mem_cons_self _ _⟩
      · rcases ih c h with h' | ⟨h1, h2⟩
        · exact Or.inl h'
        · exact Or.inr ⟨h1, List.mem_cons_of_mem _ h2⟩
    · split at hc
      · rename_i t heq
        rcases ih c hc with h' | ⟨h1, h2⟩
        · exact Or.inl h'
        · exact Or.inr ⟨h1, List.mem_cons_of_mem _ h2⟩
      · rcases List.mem_cons.mp hc with h | h
        · exact Or.inl h
        · rcases ih c h with h' | ⟨h1, h2⟩
          · exact Or.inl h'
          · exact Or.inr ⟨h1, List.mem_cons_of_mem _ h2⟩

/-- `collapseNonWord` never produces two adjacent spaces. -/
theorem noTwoSpaces_collapse (l : List Char) :
    noTwoSpaces (collapseNonWord l) = true := by
  induction l with
  | nil => rfl
  | cons a cs ih =>
    simp only [collapseNonWord]
    split_ifs with hw
    · rw [noTwoSpaces_cons_iff]
      refine ⟨?_, ih⟩
      rintro ⟨ha, -⟩
      exact word_ne_space hw ha
    · split
      · rename_i t heq
        exact ih
      · rename_i hne
        rw [noTwoSpaces_cons_iff]
        refine ⟨?_, ih⟩
        rintro ⟨-, hh⟩
        cases hcc : collapseNonWord cs with
        | nil => rw [hcc] at hh; simp at hh
        | cons d t =>
          rw [hcc, List.head?_cons, Option.some_inj] at hh
          subst hh
          exact hne t hcc

/-- `dropWhile` only keeps members of the original list. -/
theorem mem_dropWhile {p : Char → Bool} {l : List Char} :
    ∀ c ∈ l.dropWhile p, c ∈ l := by
  induction l with
  | nil => simp
  | cons a cs ih =>
    intro c hc
    rw [List.dropWhile_cons] at hc
    split_ifs at hc with h
    · exact List.mem_cons_of_mem _ (ih c hc)
    · exact hc

/-- `dropWhile` preserves the absence of adjacent spaces. -/
theorem noTwoSpaces_dropWhile {p : Char → Bool} {l : List Char}
    (h : noTwoSpaces l = true) : noTwoSpaces (l.dropWhile p) = true := by
  induction l with
  | nil => exact h
  | cons a cs ih =>
    rw [List.dropWhile_cons]
    split_ifs with hp
    · exact ih (noTwoSpaces_tail h)
    · exact h

/-- The head surviving `dropWhile` fails the dropped predicate. -/
theorem head_dropWhile (p : Char → Bool) (l : List Char) :
    (l.dropWhile p).head?.all (fun c => !p c) = true := by
  induction l with
  | nil => rfl
  | cons a cs ih =>
    rw [List.dropWhile_cons]
    split_ifs with hp
    · exact ih
    · simp [hp]

/-- `pyStripRight` only keeps members of the original list. -/
theorem mem_pyStripRight {l : List Char} : ∀ c ∈ pyStripRight l, c ∈ l := by
  induction l with
  | nil => intro c hc; simp [pyStripRight] at hc
  | cons a cs ih =>
    intro c hc
    rw [pyStripRight] at hc
    cases h2 : pyStripRight cs with
    | nil =>
      rw [h2] at hc
      simp only [] at hc
      split_ifs at hc with hs
      · simp at hc
      · rw [List.mem_singleton] at hc
        subst hc
        exact List.mem_cons_self _ _
    | cons d t =>
      rw [h2] at hc
      simp only [] at hc
      rcases List.mem_cons.mp hc with h | h
      · subst h
        exact List.mem_cons_self _ _
      · rw [← h2] at h
        exact List.mem_cons_of_mem _ (ih c h)

/-- A non-empty `pyStripRight` result starts with the original head. -/
theorem pyStripRight_eq_cons {l : List Char} {x : Char} {r : List Char}
    (h : pyStripRight l = x :: r) : ∃ t, l = x :: t := by
  cases l with
  | nil => simp [pyStripRight] at h
  | cons a cs =>
    rw [pyStripRight] at h
    cases h2 : pyStripRight cs with
    | nil =>
      rw [h2] at h
      simp only [] at h
      split_ifs at h with hs
      have h' : a = x := by
        have hh := congrArg List.head? h
        simpa using hh
      exact ⟨cs, by rw [h']⟩
    | cons d t =>
      rw [h2] at h
      simp only [] at h
      have h' : a = x := by
        have hh := congrArg List.head? h
        simpa using hh
      exact ⟨cs, by rw [h']⟩

/-- `pyStripRight` preserves the absence of adjacent spaces. -/
theorem noTwoSpaces_pyStripRight :
    ∀ l : List Char, noTwoSpaces l = true →
      noTwoSpaces (pyStripRight l) = true := by
  intro l
  induction l with
  | nil => intro h; exact h
  | cons a cs ih =>
    intro h
    rw [pyStripRight]
    cases h2 : pyStripRight cs with
    | nil =>
      simp only []
      split_ifs
      · rfl
      · rfl
    | cons d t =>
      simp only []
      have hcs := ih (noTwoSpaces_tail h)
      rw [h2] at hcs
      obtain ⟨u, hu⟩ := pyStripRight_eq_cons h2
      rw [noTwoSpaces_cons_iff]
      refine ⟨?_, hcs⟩
      rintro ⟨ha, hd⟩
      rw [List.head?_cons, Option.some_inj] at hd
      rw [hu] at h
      refine ((noTwoSpaces_cons_iff a (d :: u)).mp h).1 ⟨ha, ?_⟩
      rw [List.head?_cons, Option.some_inj]
      exact hd

/-- The last character surviving `pyStripRight` is not whitespace. -/
theorem pyStripRight_getLast (l : List Char) :
    (pyStripRight l).getLast?.all (fun c => !pyIsSpace c) = true := by
  induction l with
  | nil => rfl
  | cons a cs ih =>
    rw [pyStripRight]
    cases h2 : pyStripRight cs with
    | nil =>
      simp only []
      split_ifs with hs
      · rfl
      · simp [hs]
    | cons d t =>
      simp only []
      rw [List.getLast?_cons_cons]
      rw [← h2]
      exact ih

/-- Mapping `pyLower` over a string without uppercase letters fixes it. -/
theorem map_pyLower_fixed :
    ∀ l : List Char, (∀ c ∈ l, c.isUpper = false) → l.map pyLower = l := by
  intro l
  induction l with
  | nil => intro _; rfl
  | cons a cs ih =>
    intro h
    rw [List.map_cons, pyLower_fixed (h a (List.mem_cons_self _ _)),
      ih (fun c hc => h c (List.mem_cons_of_mem _ hc))]

/-- One-step unfolding of `collapseNonWord` on a cons cell. -/
theorem collapseNonWord_cons (c : Char) (cs : List Char) :
    collapseNonWord (c :: cs) =
      if isWordChar c then c :: collapseNonWord cs
      else
        match collapseNonWord cs with
        | ' ' :: _ => collapseNonWord cs
        | _ => ' ' :: collapseNonWord cs := rfl

/-- `collapseNonWord` fixes a string of word characters and isolated
interior spaces that does not end in a space. -/
theorem collapse_fixed :
    ∀ l : List Char, (∀ c ∈ l, isWordChar c = true ∨ c = ' ') →
      noTwoSpaces l = true →
      l.getLast?.all (fun c => !pyIsSpace c) = true →
      collapseNonWord l = l := by
  intro l
  induction l with
  | nil => intro _ _ _; rfl
  | cons a cs ih =>
    intro hchar hnts hlast
    have hcs_char : ∀ c ∈ cs, isWordChar c = true ∨ c = ' ' :=
      fun c hc => hchar c (List.mem_cons_of_mem _ hc)
    have hcs_nts := noTwoSpaces_tail hnts
    cases cs with
    | nil =>
      have ha : isWordChar a = true := by
        rcases hchar a (List.mem_cons_self _ _) with h | h
        · exact h
        · subst h
          exact absurd hlast (by decide)
      simp only [collapseNonWord]
      rw [if_pos ha]
    | cons b t =>
      have hlast_cs : (b :: t).getLast?.all (fun c => !pyIsSpace c) = true := by
        rw [List.getLast?_cons_cons] at hlast
        exact hlast
      have hrest := ih hcs_char hcs_nts hlast_cs
      rcases hchar a (List.mem_cons_self _ _) with ha | ha
      · rw [collapseNonWord_cons, if_pos ha, hrest]
      · subst ha
        have hb : b ≠ ' ' := by
          intro hb
          refine ((noTwoSpaces_cons_iff _ _).mp hnts).1 ⟨rfl, ?_⟩
          rw [List.head?_cons, Option.some_inj]
          exact hb
        rw [collapseNonWord_cons, if_neg (by decide : ¬(isWordChar ' ' = true)), hrest]
        split
        · rename_i heq
          have : b = ' ' := by
            have hh := congrArg List.head? heq
            simpa using hh
          exact absurd this hb
        · rfl

/-- `dropWhile` fixes a list whose head fails the predicate. -/
theorem dropWhile_fixed {l : List Char}
    (h : l.head?.all (fun c => !pyIsSpace c) = true) :
    l.dropWhile pyIsSpace = l := by
  cases l with
  | nil => rfl
  | cons a cs =>
    rw [List.head?_cons] at h
    rw [List.dropWhile_cons, if_neg]
    simp only [Option.all_some, Bool.not_eq_true'] at h
    rw [h]
    exact Bool.false_ne_true

/-- `pyStripRight` fixes a list not ending in whitespace. -/
theorem pyStripRight_fixed :
    ∀ l : List Char, l.getLast?.all (fun c => !pyIsSpace c) = true →
      pyStripRight l = l := by
  intro l
  induction l with
  | nil => intro _; rfl
  | cons a cs ih =>
    intro h
    rw [pyStripRight]
    cases cs with
    | nil =>
      simp only [pyStripRight]
      rw [if_neg]
      simp only [List.getLast?_singleton, Option.all_some, Bool.not_eq_true'] at h
      rw [h]
      exact Bool.false_ne_true
    | cons b t =>
      rw [List.getLast?_cons_cons] at h
      rw [ih h]

/-- All four structural invariants of `preprocess_text` output, in one
helper: characters are non-uppercase word characters or spaces, no two
spaces are adjacent, and the string neither starts nor ends with
whitespace. -/
theorem preprocess_invariants_aux (text : List Char) :
    (∀ c ∈ preprocess_text text,
      (isWordChar c = true ∧ c.isUpper = false) ∨ c = ' ') ∧
    noTwoSpaces (preprocess_text text) = true ∧
    (preprocess_text text).head?.all (fun c => !pyIsSpace c) = true ∧
    (preprocess_text text).getLast?.all (fun c => !pyIsSpace c) = true := by
  unfold preprocess_text pyStrip
  refine ⟨?_, ?_, ?_, ?_⟩
  · intro c hc
    have hc1 := mem_dropWhile c (mem_pyStripRight c hc)
    rcases mem_collapseNonWord c hc1 with h | ⟨hw, hm⟩
    · exact Or.inr h
    · refine Or.inl ⟨hw, ?_⟩
      rw [pyLowerStr] at hm
      obtain ⟨a, -, ha⟩ := List.mem_map.mp hm
      rw [← ha]
      exact pyLower_not_upper a
  · exact noTwoSpaces_pyStripRight _
      (noTwoSpaces_dropWhile (noTwoSpaces_collapse _))
  · cases hsr : pyStripRight ((collapseNonWord (pyLowerStr text)).dropWhile pyIsSpace) with
    | nil => rfl
    | cons x r =>
      obtain ⟨t, ht⟩ := pyStripRight_eq_cons hsr
      have hdw := head_dropWhile pyIsSpace (collapseNonWord (pyLowerStr text))
      rw [ht, List.head?_cons] at hdw
      rw [List.head?_cons]
      exact hdw
  · exact pyStripRight_getLast _

/-- C9: every character of the preprocessor's output is a non-uppercase
word character or a space, no two adjacent characters are both spaces, and
the output neither starts nor ends with whitespace. -/
theorem preprocess_text_invariants (text : List Char) :
    (preprocess_text text).all
      (fun c => (isWordChar c && !c.isUpper) || c == ' ') = true ∧
    noTwoSpaces (preprocess_text text) = true ∧
    (preprocess_text text).head?.all (fun c => !pyIsSpace c) = true ∧
    (preprocess_text text).getLast?.all (fun c => !pyIsSpace c) = true := by
  obtain ⟨h1, h2, h3, h4⟩ := preprocess_invariants_aux text
  refine ⟨?_, h2, h3, h4⟩
  rw [List.all_eq_true]
  intro c hc
  rcases h1 c hc with ⟨hw, hu⟩ | hsp
  · simp [hw, hu]
  · simp [hsp]

/-- C6: the preprocessor is idempotent. -/
theorem preprocess_text_idem (text : List Char) :
    preprocess_text (preprocess_text text) = preprocess_text text := by
  obtain ⟨hchars, hnts, hhead, hlast⟩ := preprocess_invariants_aux text
  have h1 : (preprocess_text text).map pyLower = preprocess_text text := by
    refine map_pyLower_fixed _ (fun c hc => ?_)
    rcases hchars c hc with ⟨-, h⟩ | h
    · exact h
    · rw [h]
      decide
  have h2 : collapseNonWord (preprocess_text text) = preprocess_text text := by
    refine collapse_fixed _ (fun c hc => ?_) hnts hlast
    rcases hchars c hc with ⟨h, -⟩ | h
    · exact Or.inl h
    · exact Or.inr h
  show pyStrip (collapseNonWord (pyLowerStr (preprocess_text text))) =
    preprocess_text text
  rw [pyLowerStr, h1, h2]
  unfold pyStrip
  rw [dropWhile_fixed hhead, pyStripRight_fixed _ hlast]

-- Evaluation checks of the embedding against the Python semantics on concrete inputs.
example : natRepr 0 = ['0'] := by decide
example : natRepr 207 = ['2', '0', '7'] := by decide
example : pyRound (5 / 2) = 2 := by
  have h : ⌊(5 / 2 : ℚ)⌋ = 2 := by rw [Int.floor_eq_iff]; norm_num
  simp [pyRound, h]; norm_num
example : pyRound (7 / 2) = 4 := by
  have h : ⌊(7 / 2 : ℚ)⌋ = 3 := by rw [Int.floor_eq_iff]; norm_num
  simp [pyRound, h]; norm_num
example : pyRound (100 / 3) = 33 := by
  have h : ⌊(100 / 3 : ℚ)⌋ = 33 := by rw [Int.floor_eq_iff]; norm_num
  simp [pyRound, h]; norm_num
example : calculate_style_score "• a\n• b\n- c\n- d\n- e".toList = 75 := by decide
example : check_formatting "• - a - b•".toList = [bulletMsg] := by decide
example : preprocess_text "  Hello,  WORLD!! ".toList = "hello world".toList := by decide
example : preprocess_text "!!!".toList = [] := by decide
example : countSub "- ".toList "- - ".toList = 2 := by decide
example : countSub ['•'] "a•b•".toList = 2 := by decide
example : splitlines "a\r\nb\n".toList = ["a".toList, "b".toList] := by decide
example : splitlines "".toList = [] := by decide
example : splitlines "\n".toList = [[]] := by decide
example : pySplit "  ab c  ".toList = ["ab".toList, "c".toList] := by decide
example : pyIsUpper "AB C1!".toList = true := by decide
example : pyIsUpper "123".toList = false := by decide
example : containsSub "bc".toList "abcd".toList = true := by decide
example : containsSub "".toList "".toList = true := by decide
example : pyStrip " \t a b \n".toList = "a b".toList := by decide
